import Mathlib

/-!
Verification development for the `dgml-utils` chunk-segmentation core
(`src/python/dgml_utils/segmentation.py` together with the constants of
`src/python/dgml/config.py`).

The embedding is shallow:

* Python strings are `List Char` (Python slicing and `len` act on code
  points, exactly as `List.take`/`List.drop`/`List.length` do here).
* An XML element is a `Node`: its tag, the optional value of its
  `structure` attribute (the only attribute the core ever consults), a
  text payload used by the concrete test renderers, and its ordered
  children.  `Node`/`NodeList` are a mutual pair so every traversal is
  structural recursion and reduces inside the kernel.
* The text-rendering helpers (`simplified_xml`, `xhtml_table_to_text`,
  `text_node_to_text`), `clean_tag`, `etree.tostring` and the `xpath`
  locator live in `dgml_utils.conversions` / `dgml_utils.locators`,
  which are external collaborators not part of this repository's core;
  they are passed in as an `Env` of uninterpreted functions.
* The only statement in the core that can raise is the index
  `_build_chunks(ancestor_node, ...)[0]` (an `IndexError` when the
  ancestor renders to the empty string), so the traversal returns an
  `Option`: `none` models the exception.
* Python's `range(0, n, max_text_length)` raises `ValueError` when
  `max_text_length = 0`; all theorems therefore assume
  `0 < max_text_length`, matching every configuration the spec admits.
-/

mutual
inductive Node where
  | mk (tag : String) (struct : Option String) (text : List Char) (children : NodeList)
inductive NodeList where
  | nil
  | cons (n : Node) (ns : NodeList)
end

def Node.tag : Node → String
  | .mk t _ _ _ => t

/-- The value of the node's `structure` attribute (`STRUCTURE_KEY`), or
`none` when the attribute is absent. -/
def Node.struct : Node → Option String
  | .mk _ s _ _ => s

/-- Text payload carried by the node; only concrete test environments
read it, the core itself never does. -/
def Node.text : Node → List Char
  | .mk _ _ tx _ => tx

def Node.children : Node → NodeList
  | .mk _ _ _ c => c

def NodeList.toList : NodeList → List Node
  | .nil => []
  | .cons n ns => n :: ns.toList

/-- `TABLE_NAME` from `config.py`. -/
def TABLE_NAME : String := "\x7bhttp://www.w3.org/1999/xhtml\x7dtable"

/-- A `Chunk` as produced by the core.  `models.py` is not part of the
source tree; the field list is the one the core constructs
(`tag`, `text`, `xml`, `structure`, `xpath`) plus the `parent` reference
it assigns, with `text` as `List Char`. -/
inductive Chunk where
  | mk (tag : String) (text : List Char) (xml : String) (structure_ : String)
      (xpath : String) (parent : Option Chunk)

def Chunk.tag : Chunk → String
  | .mk t _ _ _ _ _ => t

def Chunk.text : Chunk → List Char
  | .mk _ tx _ _ _ _ => tx

def Chunk.xml : Chunk → String
  | .mk _ _ x _ _ _ => x

def Chunk.structure_ : Chunk → String
  | .mk _ _ _ s _ _ => s

def Chunk.xpath : Chunk → String
  | .mk _ _ _ _ p _ => p

def Chunk.parent : Chunk → Option Chunk
  | .mk _ _ _ _ _ pa => pa

/-- `chunk.parent = ancestor_chunk` (line 133 of `segmentation.py`). -/
def Chunk.withParent : Chunk → Option Chunk → Chunk
  | .mk t tx x s p _, pa => .mk t tx x s p pa

/-- Modelled from the spec: `Chunk` addition (`prepended_small_chunk + chunk`,
`models.py` is not in the source tree).  Spec 4.3: concatenate the pending
chunk's text before the current chunk's text; the current chunk's other
fields are retained. -/
def Chunk.add (p : Chunk) : Chunk → Chunk
  | .mk t tx x s xp pa => .mk t (p.text ++ tx) x s xp pa

/-- Modelled from the spec: the external renderers of
`dgml_utils.conversions` and the locator of `dgml_utils.locators`,
treated as an arbitrary environment of total functions. -/
structure Env where
  simplified_xml : Node → Bool → List Char
  xhtml_table_to_text : Node → Bool → List Char
  text_node_to_text : Node → Bool → List Char
  clean_tag : Node → String
  tostring : Node → String
  locator : Node → String

/-- The keyword parameters of `get_chunks`. -/
structure Config where
  min_text_length : Nat
  max_text_length : Nat
  whitespace_normalize_text : Bool
  sub_chunk_tables : Bool
  xml_mode : Bool
  parent_hierarchy_levels : Nat

/-- `is_structural`: the node itself carries the `structure` attribute. -/
def is_structural (node : Node) : Bool :=
  node.struct.isSome

mutual
/-- Does the subtree rooted at the node (the node itself included)
contain a `structure` attribute anywhere? -/
def subtree_has_structural : Node → Bool
  | .mk _ st _ cs => st.isSome || children_have_structural cs
def children_have_structural : NodeList → Bool
  | .nil => false
  | .cons c cs => subtree_has_structural c || children_have_structural cs
end

/-- `has_structural_children`: `node.findall(".//*[@structure]")` is
non-empty, i.e. some strict descendant carries the attribute. -/
def has_structural_children (node : Node) : Bool :=
  children_have_structural node.children

/-- `is_descendant_of_structural`: some ancestor carries the attribute.
The traversal passes the ancestor chain (nearest first) explicitly. -/
def is_descendant_of_structural (ancestors : List Node) : Bool :=
  ancestors.any (fun a => a.struct.isSome)

/-- `is_force_prepend_chunk`: the `structure` attribute equals `"lim"`. -/
def is_force_prepend_chunk (node : Node) : Bool :=
  node.struct == some "lim"

/-- The leaf classification of `_traverse` (lines 98-102):
`is_table_leaf_node or is_text_leaf_node or is_structure_orphaned_node`. -/
def isLeafNode (sub_chunk_tables : Bool) (ancestors : List Node) (node : Node) : Bool :=
  (node.tag == TABLE_NAME && !sub_chunk_tables) ||
    (is_structural node && !has_structural_children node) ||
    (is_descendant_of_structural ancestors && !has_structural_children node)

/-- Fuel-driven splitter; the fuel is an upper bound on the recursion
depth so that the definition is structural and kernel-reducible. -/
def splitGo (m : Nat) : Nat → List Char → List (List Char)
  | _, [] => []
  | 0, _ :: _ => []
  | fuel + 1, c :: cs => (c :: cs).take m :: splitGo m fuel ((c :: cs).drop m)

/-- `[node_text[i : i + max_text_length] for i in range(0, len(node_text), max_text_length)]`
(line 80): consecutive windows of `m` characters, the last one possibly
shorter, an empty text giving no windows.  (For `m = 0` Python raises
`ValueError`; theorems assume `0 < m`.) -/
def text_splits (m : Nat) (s : List Char) : List (List Char) :=
  splitGo m s.length s

/-- The rendering selected by `_build_chunks` (lines 70-78). -/
def node_text (env : Env) (xml_mode : Bool) (whitespace_normalize_text : Bool)
    (node : Node) : List Char :=
  if xml_mode then env.simplified_xml node whitespace_normalize_text
  else if node.tag == TABLE_NAME then env.xhtml_table_to_text node whitespace_normalize_text
  else env.text_node_to_text node whitespace_normalize_text

/-- `_build_chunks` (lines 60-93): render the node, split, and wrap each
window in a `Chunk` sharing the node's metadata. -/
def _build_chunks (env : Env) (xml_mode : Bool) (max_text_length : Nat)
    (whitespace_normalize_text : Bool) (node : Node) : List Chunk :=
  (text_splits max_text_length (node_text env xml_mode whitespace_normalize_text node)).map
    (fun t =>
      Chunk.mk (env.clean_tag node) t (env.tostring node) (node.struct.getD "")
        (env.locator node) none)

/-- Modelled from the spec: `xml_nth_ancestor` of `dgml_utils.conversions`
(not in the source tree) — "`ancestor(node, n)` — n levels up, clipped at
root".  The traversal supplies the ancestor chain nearest-first. -/
def xml_nth_ancestor (node : Node) (ancestors : List Node) (n : Nat) : Node :=
  ancestors.getD (n - 1) (ancestors.getLastD node)

/-- The mutable state of `get_chunks`: the output list and the single
pending-buffer slot `prepended_small_chunk`. -/
structure SegState where
  final_chunks : List Chunk
  pending : Option Chunk

/-- Lines 133-137: the chunk with its parent attached and the pending
chunk (if any) concatenated in front. -/
def merged_chunk (ancestor_chunk : Option Chunk) (s : SegState) (c : Chunk) : Chunk :=
  match s.pending with
  | some p => p.add (c.withParent ancestor_chunk)
  | none => c.withParent ancestor_chunk

/-- One iteration of the loop at lines 132-143: attach the parent,
absorb the pending chunk, then hold or emit. -/
def processChunk (min_text_length : Nat) (node : Node) (ancestor_chunk : Option Chunk)
    (s : SegState) (c : Chunk) : SegState :=
  if (merged_chunk ancestor_chunk s c).text.length < min_text_length
      || is_force_prepend_chunk node then
    { final_chunks := s.final_chunks, pending := some (merged_chunk ancestor_chunk s c) }
  else
    { final_chunks := s.final_chunks ++ [merged_chunk ancestor_chunk s c], pending := none }

/-- The whole loop at lines 132-143 over the sub-chunks of one leaf. -/
def processLeaf (min_text_length : Nat) (node : Node) (ancestor_chunk : Option Chunk)
    (s : SegState) (sub_chunks : List Chunk) : SegState :=
  sub_chunks.foldl (processChunk min_text_length node ancestor_chunk) s

/-- The leaf branch of `_traverse` (lines 102-143): build the sub-chunks,
resolve the ancestor context chunk when in xml hierarchy mode (where the
index `[0]` raises — `none` — if the ancestor renders to nothing), and
run the merge loop. -/
def leafStep (env : Env) (cfg : Config) (ancestors : List Node) (node : Node)
    (s : SegState) : Option SegState :=
  let sub_chunks := _build_chunks env cfg.xml_mode cfg.max_text_length
    cfg.whitespace_normalize_text node
  if cfg.xml_mode && decide (0 < cfg.parent_hierarchy_levels) then
    match _build_chunks env cfg.xml_mode cfg.max_text_length
        cfg.whitespace_normalize_text
        (xml_nth_ancestor node ancestors cfg.parent_hierarchy_levels) with
    | [] => none
    | a :: _ => some (processLeaf cfg.min_text_length node (some a) s sub_chunks)
  else
    some (processLeaf cfg.min_text_length node none s sub_chunks)

mutual
/-- `_traverse` (lines 95-147), with the ancestor chain made explicit and
the state threaded; `none` models the `IndexError` of line 130. -/
def _traverse (env : Env) (cfg : Config) (ancestors : List Node) :
    Node → SegState → Option SegState
  | .mk tg st tx cs, s =>
    if isLeafNode cfg.sub_chunk_tables ancestors (.mk tg st tx cs) then
      leafStep env cfg ancestors (.mk tg st tx cs) s
    else
      _traverseList env cfg ((Node.mk tg st tx cs) :: ancestors) cs s
/-- `for child in node: _traverse(child)` (lines 146-147). -/
def _traverseList (env : Env) (cfg : Config) (ancestors : List Node) :
    NodeList → SegState → Option SegState
  | .nil, s => some s
  | .cons c cs, s =>
    match _traverse env cfg ancestors c s with
    | none => none
    | some s1 => _traverseList env cfg ancestors cs s1
end

/-- `get_chunks` (lines 47-159) called on the root of a tree: traverse,
then append the still-pending chunk (lines 152-153); the
`not xml_mode and parent_hierarchy_levels > 0` branch at lines 155-157
is a placeholder (`...`) and does nothing. -/
def get_chunks (env : Env) (cfg : Config) (node : Node) : Option (List Chunk) :=
  match _traverse env cfg [] node { final_chunks := [], pending := none } with
  | none => none
  | some s => some (s.final_chunks ++ s.pending.toList)

/-- The text still sitting in the pending buffer. -/
def pendingText (s : SegState) : List Char :=
  match s.pending with
  | none => []
  | some p => p.text

/-- All text held by the state: emitted chunks in order, then the
pending buffer. -/
def stateText (s : SegState) : List Char :=
  (s.final_chunks.map Chunk.text).flatten ++ pendingText s

mutual
/-- The concatenation, in document (pre-order) order, of the rendered
texts of all leaf-classified nodes: the reference value for the
no-character-loss property. -/
def leaf_texts (env : Env) (cfg : Config) : List Node → Node → List Char :=
  fun ancestors node =>
    match node with
    | .mk tg st tx cs =>
      if isLeafNode cfg.sub_chunk_tables ancestors (.mk tg st tx cs) then
        node_text env cfg.xml_mode cfg.whitespace_normalize_text (.mk tg st tx cs)
      else
        leaf_texts_list env cfg ((Node.mk tg st tx cs) :: ancestors) cs
/-- `leaf_texts` over a child list. -/
def leaf_texts_list (env : Env) (cfg : Config) : List Node → NodeList → List Char :=
  fun ancestors ns =>
    match ns with
    | .nil => []
    | .cons c cs =>
      leaf_texts env cfg ancestors c ++ leaf_texts_list env cfg ancestors cs
end

/-- `b` starts with `a`. -/
def prefixOf (a b : List Char) : Prop :=
  ∃ t, b = a ++ t

mutual
/-- Spec-side: the strict descendants of a node, in document order. -/
def descendants : Node → List Node
  | .mk _ _ _ cs => descendantsList cs
/-- Spec-side: all nodes of a child list together with their descendants. -/
def descendantsList : NodeList → List Node
  | .nil => []
  | .cons n ns => n :: (descendants n ++ descendantsList ns)
end

/-- Spec-side leaf classification, transcribed from the claim: a
table-typed node with table sub-chunking disabled, a marker-carrying
node none of whose descendants carries one, or a descendant of a
marker-carrying ancestor with no marker-carrying descendant.  It
mentions no text length. -/
def spec_is_leaf (sub_chunk_tables : Bool) (ancestors : List Node) (node : Node) : Prop :=
  (node.tag = TABLE_NAME ∧ sub_chunk_tables = false)
    ∨ (node.struct.isSome ∧ ∀ d ∈ descendants node, d.struct = none)
    ∨ ((∃ a ∈ ancestors, a.struct.isSome) ∧ ∀ d ∈ descendants node, d.struct = none)

mutual
/-- Does the subtree rooted at the node contain a table-typed node? -/
def subtree_has_table : Node → Bool
  | .mk tg _ _ cs => tg == TABLE_NAME || children_have_table cs
/-- `subtree_has_table` over a child list. -/
def children_have_table : NodeList → Bool
  | .nil => false
  | .cons c cs => subtree_has_table c || children_have_table cs
end

/-- A concrete environment for witnesses and counterexamples: every
renderer returns the node's text payload, `clean_tag` and `tostring`
return the tag, the locator is constant. -/
def testEnv : Env :=
  { simplified_xml := fun n _ => n.text
    xhtml_table_to_text := fun n _ => n.text
    text_node_to_text := fun n _ => n.text
    clean_tag := Node.tag
    tostring := Node.tag
    locator := fun _ => "" }

/-- A structural leaf rendering to one character. -/
def nA : Node := Node.mk "a" (some "s") ['a'] .nil

/-- A structural leaf rendering to three characters. -/
def nB : Node := Node.mk "b" (some "s") ['b', 'c', 'd'] .nil

/-- An unmarked root with the two structural leaves `nA`, `nB`. -/
def tree1 : Node := Node.mk "r" none [] (.cons nA (.cons nB .nil))

/-- `min_text_length = 2`, `max_text_length = 3`, plain-text mode, no
context attachment. -/
def cfg1 : Config := ⟨2, 3, true, false, false, 0⟩

/-- A root rendering to the empty string whose only child is a
structural leaf. -/
def rootC10 : Node := Node.mk "r" none [] (.cons (Node.mk "c" (some "s") ['x'] .nil) .nil)

/-- xml mode with one level of context attachment. -/
def cfgC10 : Config := ⟨8, 100, true, false, true, 1⟩

/-- A markerless table node. -/
def tblC9 : Node := Node.mk TABLE_NAME none ['t', 'b', 'l'] .nil

/-- Plain-text mode with table sub-chunking disabled (the default). -/
def cfgC9 : Config := ⟨1, 10, true, false, false, 1⟩

/-- A marker-carrying table node with one markerless child. -/
def tblC8 : Node :=
  Node.mk TABLE_NAME (some "x") ['T', 'T', 'T'] (.cons (Node.mk "c" none ['c', 'c', 'c'] .nil) .nil)

/-- A markerless table node with one markerless child. -/
def tblPlain : Node :=
  Node.mk TABLE_NAME none ['T'] (.cons (Node.mk "c" none ['c', 'c', 'c'] .nil) .nil)

/-- Plain-text mode with table sub-chunking enabled. -/
def cfgC8 : Config := ⟨1, 10, true, true, false, 1⟩

/-- Plain-text mode with table sub-chunking disabled. -/
def cfgC8f : Config := ⟨1, 10, true, false, false, 1⟩

/-- A leaf whose rendered text has 250 characters. -/
def node250 : Node := Node.mk "n" none (List.replicate 250 'a') .nil

/-- A force-merge (`"lim"`) leaf. -/
def nL : Node := Node.mk "l" (some "lim") ['a', 'b'] .nil

/-- A chunk sitting in the pending buffer. -/
def pchunk : Chunk := Chunk.mk "p" ['z'] "p" "" "" none

/-- An ancestor rendering to two characters. -/
def rootP : Node := Node.mk "r" none ['R', 'R'] (.cons nA .nil)

/-- xml mode, one level of context attachment, `min 2`, `max 3`. -/
def cfgX : Config := ⟨2, 3, true, false, true, 1⟩

/-- A tree with no structure marker and no table anywhere. -/
def plainTree : Node := Node.mk "r" none ['r'] (.cons (Node.mk "c" none ['c'] .nil) .nil)

/-- Observable projection of a traversal result: emitted texts and
pending text. -/
def stateTexts (o : Option SegState) : Option (List (List Char) × Option (List Char)) :=
  o.map (fun s => (s.final_chunks.map Chunk.text, s.pending.map Chunk.text))

/-- A second large structural leaf. -/
def nB2 : Node := Node.mk "e" (some "s") ['e', 'f', 'g'] .nil

/-- An unmarked root with two large structural leaves. -/
def tree2 : Node := Node.mk "r" none [] (.cons nB (.cons nB2 .nil))

mutual
/-- Does the subtree rooted at the node (the node itself included)
carry the force-merge marker `"lim"` anywhere? -/
def subtree_has_lim : Node → Bool
  | .mk _ st _ cs => (st == some "lim") || children_have_lim cs
/-- `subtree_has_lim` over a child list. -/
def children_have_lim : NodeList → Bool
  | .nil => false
  | .cons c cs => subtree_has_lim c || children_have_lim cs
end

/-- A marker-carrying table node with a marker-carrying child. -/
def tblDeep : Node :=
  Node.mk TABLE_NAME (some "x") ['T'] (.cons (Node.mk "c" (some "y") ['c'] .nil) .nil)

/-! ## Basic lemmas about chunks and the splitter -/

@[simp]
theorem Chunk.text_mk (t : String) (tx : List Char) (x s p : String) (pa : Option Chunk) :
    (Chunk.mk t tx x s p pa).text = tx := rfl

@[simp]
theorem Chunk.text_withParent (c : Chunk) (o : Option Chunk) :
    (c.withParent o).text = c.text := by
  cases c
  rfl

@[simp]
theorem Chunk.parent_withParent (c : Chunk) (o : Option Chunk) :
    (c.withParent o).parent = o := by
  cases c
  rfl

@[simp]
theorem Chunk.text_add (p c : Chunk) : (p.add c).text = p.text ++ c.text := by
  cases c
  rfl

@[simp]
theorem Chunk.parent_add (p c : Chunk) : (p.add c).parent = c.parent := by
  cases c
  rfl

theorem splitGo_fuel_eq (m : Nat) (hm : 0 < m) : ∀ fuel1 fuel2 (s : List Char),
    s.length ≤ fuel1 → s.length ≤ fuel2 → splitGo m fuel1 s = splitGo m fuel2 s := by
  intro fuel1
  induction fuel1 with
  | zero =>
    intro fuel2 s h1 _
    have hs : s = [] := List.eq_nil_of_length_eq_zero (Nat.le_zero.mp h1)
    subst hs
    cases fuel2 with
    | zero => rfl
    | succ _ => rfl
  | succ fuel ih =>
    intro fuel2 s h1 h2
    cases s with
    | nil =>
      cases fuel2 with
      | zero => rfl
      | succ _ => rfl
    | cons c cs =>
      cases fuel2 with
      | zero => simp at h2
      | succ fuel2 =>
        show (c :: cs).take m :: splitGo m fuel ((c :: cs).drop m)
            = (c :: cs).take m :: splitGo m fuel2 ((c :: cs).drop m)
        congr 1
        rw [List.length_cons] at h1 h2
        apply ih
        · rw [List.length_drop, List.length_cons]
          omega
        · rw [List.length_drop, List.length_cons]
          omega

theorem text_splits_cons (m : Nat) (hm : 0 < m) (c : Char) (cs : List Char) :
    text_splits m (c :: cs) = (c :: cs).take m :: text_splits m ((c :: cs).drop m) := by
  show (c :: cs).take m :: splitGo m cs.length ((c :: cs).drop m) = _
  congr 1
  apply splitGo_fuel_eq m hm
  · rw [List.length_drop, List.length_cons]
    omega
  · rw [List.length_drop]

theorem text_splits_induction (m : Nat) (hm : 0 < m) (P : List Char → Prop)
    (hnil : P [])
    (hstep : ∀ c cs, P ((c :: cs).drop m) → P (c :: cs)) :
    ∀ s, P s := by
  have H : ∀ n (s : List Char), s.length = n → P s := by
    intro n
    induction n using Nat.strong_induction_on with
    | _ n ih =>
      intro s hs
      cases s with
      | nil => exact hnil
      | cons c cs =>
        apply hstep
        apply ih ((c :: cs).drop m).length _ _ rfl
        rw [List.length_drop]
        subst hs
        simp only [List.length_cons]
        omega
  intro s
  exact H s.length s rfl

theorem flatten_text_splits (m : Nat) (hm : 0 < m) (s : List Char) :
    (text_splits m s).flatten = s := by
  induction s using text_splits_induction m hm with
  | hnil => rfl
  | hstep c cs ih =>
    rw [text_splits_cons m hm, List.flatten_cons, ih, List.take_append_drop]

theorem length_le_of_mem_text_splits (m : Nat) (hm : 0 < m) (s t : List Char)
    (ht : t ∈ text_splits m s) : t.length ≤ m := by
  induction s using text_splits_induction m hm with
  | hnil => simp [text_splits, splitGo] at ht
  | hstep c cs ih =>
    rw [text_splits_cons m hm] at ht
    rcases List.mem_cons.mp ht with h | h
    · subst h
      simp only [List.length_take]
      omega
    · exact ih h

theorem ne_nil_of_mem_text_splits (m : Nat) (hm : 0 < m) (s t : List Char)
    (ht : t ∈ text_splits m s) : t ≠ [] := by
  induction s using text_splits_induction m hm with
  | hnil => simp [text_splits, splitGo] at ht
  | hstep c cs ih =>
    rw [text_splits_cons m hm] at ht
    rcases List.mem_cons.mp ht with h | h
    · subst h
      cases m with
      | zero => omega
      | succ m => simp
    · exact ih h

theorem text_splits_nil_iff (m : Nat) (hm : 0 < m) (s : List Char) :
    text_splits m s = [] ↔ s = [] := by
  constructor
  · intro h
    cases s with
    | nil => rfl
    | cons c cs =>
      rw [text_splits_cons m hm] at h
      exact absurd h (List.cons_ne_nil _ _)
  · intro h
    subst h
    rfl

theorem length_eq_of_mem_dropLast_text_splits (m : Nat) (hm : 0 < m) (s t : List Char)
    (ht : t ∈ (text_splits m s).dropLast) : t.length = m := by
  induction s using text_splits_induction m hm with
  | hnil => simp [text_splits, splitGo] at ht
  | hstep c cs ih =>
    rw [text_splits_cons m hm] at ht
    rcases hrest : text_splits m ((c :: cs).drop m) with _ | ⟨r, rs⟩
    · rw [hrest] at ht
      simp at ht
    · rw [hrest, List.dropLast_cons_of_ne_nil (List.cons_ne_nil _ _)] at ht
      rcases List.mem_cons.mp ht with h | h
      · subst h
        have hne : (c :: cs).drop m ≠ [] := by
          intro hd
          rw [hd] at hrest
          exact absurd hrest.symm (by simp [text_splits, splitGo])
        have hlen : m ≤ cs.length + 1 := by
          by_contra hlt
          push_neg at hlt
          exact hne (List.drop_eq_nil_of_le (by simpa using Nat.le_of_lt hlt))
        simp only [List.length_take, List.length_cons]
        omega
      · rw [← hrest] at h
        exact ih h

/-! ## Traversal machinery -/

/-- Joint structural induction over the mutual pair `Node`/`NodeList`. -/
theorem node_nodeList_ind (P : Node → Prop) (Q : NodeList → Prop)
    (hmk : ∀ tg st tx cs, Q cs → P (Node.mk tg st tx cs))
    (hnil : Q NodeList.nil)
    (hcons : ∀ n ns, P n → Q ns → Q (NodeList.cons n ns)) :
    (∀ n, P n) ∧ (∀ ns, Q ns) :=
  ⟨fun n => @Node.rec P Q hmk hnil hcons n, fun ns => @NodeList.rec P Q hmk hnil hcons ns⟩

theorem _traverseList_nil (env : Env) (cfg : Config) (anc : List Node) (s : SegState) :
    _traverseList env cfg anc NodeList.nil s = some s := rfl

theorem _traverseList_cons (env : Env) (cfg : Config) (anc : List Node) (n : Node)
    (ns : NodeList) (s : SegState) :
    _traverseList env cfg anc (NodeList.cons n ns) s
      = match _traverse env cfg anc n s with
        | none => none
        | some s1 => _traverseList env cfg anc ns s1 := rfl

theorem _traverse_leaf (env : Env) (cfg : Config) (anc : List Node) (node : Node)
    (s : SegState) (h : isLeafNode cfg.sub_chunk_tables anc node = true) :
    _traverse env cfg anc node s = leafStep env cfg anc node s := by
  cases node
  simp only [_traverse, h, if_true]

theorem _traverse_branch (env : Env) (cfg : Config) (anc : List Node) (node : Node)
    (s : SegState) (h : isLeafNode cfg.sub_chunk_tables anc node = false) :
    _traverse env cfg anc node s = _traverseList env cfg (node :: anc) node.children s := by
  cases node
  simp only [_traverse, h, Bool.false_eq_true, if_false, Node.children]

theorem leaf_texts_leaf (env : Env) (cfg : Config) (anc : List Node) (node : Node)
    (h : isLeafNode cfg.sub_chunk_tables anc node = true) :
    leaf_texts env cfg anc node
      = node_text env cfg.xml_mode cfg.whitespace_normalize_text node := by
  cases node
  simp only [leaf_texts, h, if_true]

theorem leaf_texts_branch (env : Env) (cfg : Config) (anc : List Node) (node : Node)
    (h : isLeafNode cfg.sub_chunk_tables anc node = false) :
    leaf_texts env cfg anc node
      = leaf_texts_list env cfg (node :: anc) node.children := by
  cases node
  simp only [leaf_texts, h, Bool.false_eq_true, if_false, Node.children]

/-- Every successful `leafStep` is a `processLeaf` run over the node's
own sub-chunks, for some ancestor context. -/
theorem leafStep_some (env : Env) (cfg : Config) (anc : List Node) (node : Node)
    (s s' : SegState) (h : leafStep env cfg anc node s = some s') :
    ∃ actx : Option Chunk,
      s' = processLeaf cfg.min_text_length node actx s
        (_build_chunks env cfg.xml_mode cfg.max_text_length
          cfg.whitespace_normalize_text node) := by
  unfold leafStep at h
  split at h
  · rcases hbc : _build_chunks env cfg.xml_mode cfg.max_text_length
        cfg.whitespace_normalize_text
        (xml_nth_ancestor node anc cfg.parent_hierarchy_levels) with _ | ⟨a, rest⟩
    · rw [hbc] at h
      cases h
    · rw [hbc] at h
      exact ⟨some a, (Option.some.inj h).symm⟩
  · exact ⟨none, (Option.some.inj h).symm⟩

theorem build_chunks_map_text (env : Env) (xm : Bool) (m : Nat) (ws : Bool) (node : Node) :
    (_build_chunks env xm m ws node).map Chunk.text
      = text_splits m (node_text env xm ws node) := by
  unfold _build_chunks
  rw [List.map_map]
  exact List.map_id' _

theorem merged_chunk_text (actx : Option Chunk) (s : SegState) (c : Chunk) :
    (merged_chunk actx s c).text = pendingText s ++ c.text := by
  unfold merged_chunk pendingText
  cases s.pending with
  | none => simp
  | some p => simp

theorem merged_chunk_parent (actx : Option Chunk) (s : SegState) (c : Chunk) :
    (merged_chunk actx s c).parent = actx := by
  unfold merged_chunk
  cases s.pending with
  | none => simp
  | some p => simp

theorem processChunk_stateText (mn : Nat) (node : Node) (actx : Option Chunk)
    (s : SegState) (c : Chunk) :
    stateText (processChunk mn node actx s c) = stateText s ++ c.text := by
  unfold processChunk
  split
  · simp [stateText, pendingText, merged_chunk_text, List.append_assoc]
  · simp [stateText, pendingText, merged_chunk_text, List.append_assoc]

theorem processChunk_final_mono (mn : Nat) (node : Node) (actx : Option Chunk)
    (s : SegState) (c : Chunk) :
    ∃ Δ, (processChunk mn node actx s c).final_chunks = s.final_chunks ++ Δ := by
  unfold processChunk
  split
  · exact ⟨[], by simp⟩
  · exact ⟨[merged_chunk actx s c], rfl⟩

theorem processLeaf_stateText (mn : Nat) (node : Node) (actx : Option Chunk) :
    ∀ (cs : List Chunk) (s : SegState),
      stateText (processLeaf mn node actx s cs)
        = stateText s ++ (cs.map Chunk.text).flatten := by
  intro cs
  induction cs with
  | nil => intro s; simp [processLeaf]
  | cons c cs ih =>
    intro s
    show stateText (processLeaf mn node actx (processChunk mn node actx s c) cs) = _
    rw [ih, processChunk_stateText]
    simp [List.append_assoc]

theorem processLeaf_final_mono (mn : Nat) (node : Node) (actx : Option Chunk) :
    ∀ (cs : List Chunk) (s : SegState),
      ∃ Δ, (processLeaf mn node actx s cs).final_chunks = s.final_chunks ++ Δ := by
  intro cs
  induction cs with
  | nil => intro s; exact ⟨[], by simp [processLeaf]⟩
  | cons c cs ih =>
    intro s
    rcases ih (processChunk mn node actx s c) with ⟨Δ2, h2⟩
    rcases processChunk_final_mono mn node actx s c with ⟨Δ1, h1⟩
    refine ⟨Δ1 ++ Δ2, ?_⟩
    show (processLeaf mn node actx (processChunk mn node actx s c) cs).final_chunks = _
    rw [h2, h1, List.append_assoc]

theorem traverse_final_mono (env : Env) (cfg : Config) :
    (∀ n : Node, ∀ anc s s', _traverse env cfg anc n s = some s' →
      ∃ Δ, s'.final_chunks = s.final_chunks ++ Δ) ∧
    (∀ ns : NodeList, ∀ anc s s', _traverseList env cfg anc ns s = some s' →
      ∃ Δ, s'.final_chunks = s.final_chunks ++ Δ) := by
  apply node_nodeList_ind
  · intro tg st tx cs ihQ anc s s' h
    by_cases hleaf : isLeafNode cfg.sub_chunk_tables anc (Node.mk tg st tx cs) = true
    · rw [_traverse_leaf env cfg anc _ s hleaf] at h
      rcases leafStep_some env cfg anc _ s s' h with ⟨actx, rfl⟩
      exact processLeaf_final_mono _ _ _ _ _
    · rw [_traverse_branch env cfg anc _ s (Bool.not_eq_true _ ▸ hleaf)] at h
      exact ihQ _ _ _ h
  · intro anc s s' h
    cases h
    exact ⟨[], by simp⟩
  · intro n ns ihP ihQ anc s s' h
    rw [_traverseList_cons] at h
    rcases ht : _traverse env cfg anc n s with _ | s1
    · rw [ht] at h
      cases h
    · rw [ht] at h
      rcases ihP anc s s1 ht with ⟨Δ1, h1⟩
      rcases ihQ anc s1 s' h with ⟨Δ2, h2⟩
      exact ⟨Δ1 ++ Δ2, by rw [h2, h1, List.append_assoc]⟩

theorem traverse_stateText (env : Env) (cfg : Config) (hm : 0 < cfg.max_text_length) :
    (∀ n : Node, ∀ anc s s', _traverse env cfg anc n s = some s' →
      stateText s' = stateText s ++ leaf_texts env cfg anc n) ∧
    (∀ ns : NodeList, ∀ anc s s', _traverseList env cfg anc ns s = some s' →
      stateText s' = stateText s ++ leaf_texts_list env cfg anc ns) := by
  apply node_nodeList_ind
  · intro tg st tx cs ihQ anc s s' h
    by_cases hleaf : isLeafNode cfg.sub_chunk_tables anc (Node.mk tg st tx cs) = true
    · rw [_traverse_leaf env cfg anc _ s hleaf] at h
      rcases leafStep_some env cfg anc _ s s' h with ⟨actx, rfl⟩
      rw [processLeaf_stateText, build_chunks_map_text,
        flatten_text_splits _ hm, leaf_texts_leaf env cfg anc _ hleaf]
    · rw [_traverse_branch env cfg anc _ s (Bool.not_eq_true _ ▸ hleaf)] at h
      rw [ihQ _ _ _ h, leaf_texts_branch env cfg anc _ (Bool.not_eq_true _ ▸ hleaf)]
      rfl
  · intro anc s s' h
    cases h
    simp [leaf_texts_list]
  · intro n ns ihP ihQ anc s s' h
    rw [_traverseList_cons] at h
    rcases ht : _traverse env cfg anc n s with _ | s1
    · rw [ht] at h
      cases h
    · rw [ht] at h
      rw [ihQ _ _ _ h, ihP _ _ _ ht]
      show _ = stateText s ++ leaf_texts_list env cfg anc (NodeList.cons n ns)
      rw [show leaf_texts_list env cfg anc (NodeList.cons n ns)
        = leaf_texts env cfg anc n ++ leaf_texts_list env cfg anc ns from rfl,
        List.append_assoc]

/-- The returned list is the traversal's output list with the pending
buffer flushed after it (lines 152-153 and 159). -/
theorem get_chunks_eq (env : Env) (cfg : Config) (node : Node) (l : List Chunk)
    (h : get_chunks env cfg node = some l) :
    ∃ s', _traverse env cfg [] node { final_chunks := [], pending := none } = some s'
      ∧ l = s'.final_chunks ++ s'.pending.toList := by
  unfold get_chunks at h
  rcases ht : _traverse env cfg [] node { final_chunks := [], pending := none } with _ | s1
  · rw [ht] at h
    cases h
  · rw [ht] at h
    exact ⟨s1, rfl, (Option.some.inj h).symm⟩

theorem flatten_map_text_flush (s : SegState) :
    ((s.final_chunks ++ s.pending.toList).map Chunk.text).flatten = stateText s := by
  unfold stateText pendingText
  cases hp : s.pending with
  | none => simp
  | some p => simp

/-- Claim C2: no character loss — the concatenation of the returned
chunk texts, in order, equals the concatenation of the rendered texts of
the leaf-classified nodes in document (pre-order) order. -/
theorem claim_C2_no_character_loss (env : Env) (cfg : Config) (node : Node)
    (l : List Chunk) (hm : 0 < cfg.max_text_length)
    (h : get_chunks env cfg node = some l) :
    (l.map Chunk.text).flatten = leaf_texts env cfg [] node := by
  rcases get_chunks_eq env cfg node l h with ⟨s', ht, rfl⟩
  rw [flatten_map_text_flush,
    (traverse_stateText env cfg hm).1 node [] _ s' ht]
  simp [stateText, pendingText]

/-- Claim C2 witness at a concrete input. -/
theorem claim_C2_witness :
    0 < cfg1.max_text_length ∧
      (([Chunk.mk "b" ['a', 'b', 'c', 'd'] "b" "s" "" none].map Chunk.text).flatten
        = leaf_texts testEnv cfg1 [] tree1) :=
  ⟨by decide, claim_C2_no_character_loss testEnv cfg1 tree1 _ (by decide) rfl⟩

theorem processChunk_minlen (mn : Nat) (node : Node) (actx : Option Chunk)
    (s : SegState) (c : Chunk)
    (hs : ∀ x ∈ s.final_chunks, mn ≤ x.text.length) :
    ∀ x ∈ (processChunk mn node actx s c).final_chunks, mn ≤ x.text.length := by
  unfold processChunk
  split
  · exact hs
  · next hcond =>
    intro x hx
    rcases List.mem_append.mp hx with h | h
    · exact hs x h
    · rcases List.mem_singleton.mp h with rfl
      simp only [Bool.or_eq_true, decide_eq_true_eq, not_or] at hcond
      omega

theorem processLeaf_minlen (mn : Nat) (node : Node) (actx : Option Chunk) :
    ∀ (cs : List Chunk) (s : SegState),
      (∀ x ∈ s.final_chunks, mn ≤ x.text.length) →
      ∀ x ∈ (processLeaf mn node actx s cs).final_chunks, mn ≤ x.text.length := by
  intro cs
  induction cs with
  | nil => intro s hs; exact hs
  | cons c cs ih =>
    intro s hs
    exact ih (processChunk mn node actx s c) (processChunk_minlen mn node actx s c hs)

theorem traverse_minlen (env : Env) (cfg : Config) :
    (∀ n : Node, ∀ anc s s', _traverse env cfg anc n s = some s' →
      (∀ x ∈ s.final_chunks, cfg.min_text_length ≤ x.text.length) →
      ∀ x ∈ s'.final_chunks, cfg.min_text_length ≤ x.text.length) ∧
    (∀ ns : NodeList, ∀ anc s s', _traverseList env cfg anc ns s = some s' →
      (∀ x ∈ s.final_chunks, cfg.min_text_length ≤ x.text.length) →
      ∀ x ∈ s'.final_chunks, cfg.min_text_length ≤ x.text.length) := by
  apply node_nodeList_ind
  · intro tg st tx cs ihQ anc s s' h hs
    by_cases hleaf : isLeafNode cfg.sub_chunk_tables anc (Node.mk tg st tx cs) = true
    · rw [_traverse_leaf env cfg anc _ s hleaf] at h
      rcases leafStep_some env cfg anc _ s s' h with ⟨actx, rfl⟩
      exact processLeaf_minlen _ _ _ _ _ hs
    · rw [_traverse_branch env cfg anc _ s (Bool.not_eq_true _ ▸ hleaf)] at h
      exact ihQ _ _ _ h hs
  · intro anc s s' h hs
    cases h
    exact hs
  · intro n ns ihP ihQ anc s s' h hs
    rw [_traverseList_cons] at h
    rcases ht : _traverse env cfg anc n s with _ | s1
    · rw [ht] at h
      cases h
    · rw [ht] at h
      exact ihQ _ _ _ h (ihP _ _ _ ht hs)

/-- Claim C3: every returned chunk except possibly the last has text of
length at least `min_text_length` (in fact only the flushed pending
buffer, which is the last chunk when present, can be shorter), and the
pending buffer left by the traversal is always appended, never
dropped. -/
theorem claim_C3_min_length (env : Env) (cfg : Config) (node : Node) (l : List Chunk)
    (h : get_chunks env cfg node = some l) :
    (∀ c ∈ l.dropLast, cfg.min_text_length ≤ c.text.length) ∧
    (∀ s', _traverse env cfg [] node { final_chunks := [], pending := none } = some s' →
      l = s'.final_chunks ++ s'.pending.toList) := by
  rcases get_chunks_eq env cfg node l h with ⟨s', ht, rfl⟩
  constructor
  · have hfin : ∀ x ∈ s'.final_chunks, cfg.min_text_length ≤ x.text.length :=
      (traverse_minlen env cfg).1 node [] _ s' ht (by intro x hx; cases hx)
    cases hp : s'.pending with
    | none =>
      intro c hc
      apply hfin
      simp only [Option.toList_none, List.append_nil] at hc
      exact List.dropLast_subset _ hc
    | some p =>
      intro c hc
      apply hfin
      simp only [Option.toList_some] at hc
      rwa [List.dropLast_concat] at hc
  · intro s'' ht'
    rw [ht] at ht'
    rw [Option.some.inj ht']

/-- Claim C3 witness at a concrete input with two emitted chunks. -/
theorem claim_C3_witness :
    cfg1.min_text_length ≤ (Chunk.mk "b" ['b', 'c', 'd'] "b" "s" "" none).text.length :=
  (claim_C3_min_length testEnv cfg1 tree2
      [Chunk.mk "b" ['b', 'c', 'd'] "b" "s" "" none,
        Chunk.mk "e" ['e', 'f', 'g'] "e" "s" "" none] rfl).1
    _ (by simp)

/-- Claim C1 counterexample: with `min_text_length = 2` and
`max_text_length = 3`, a pending one-character chunk merged into a
three-character chunk yields a returned chunk of length 4 — the claimed
bound `≤ max_text_length` is false. -/
theorem claim_C1_counterexample :
    (get_chunks testEnv cfg1 tree1).map
        (fun l => l.all (fun c => c.text.length ≤ cfg1.max_text_length))
      = some false := by
  decide

theorem processChunk_bound (mn mx : Nat) (node : Node) (actx : Option Chunk)
    (s : SegState) (c : Chunk)
    (hforce : is_force_prepend_chunk node = false) (hc : c.text.length ≤ mx)
    (hs : ∀ x ∈ s.final_chunks, x.text.length ≤ mx + (mn - 1))
    (hp : ∀ p, s.pending = some p → p.text.length < mn) :
    (∀ x ∈ (processChunk mn node actx s c).final_chunks, x.text.length ≤ mx + (mn - 1)) ∧
    (∀ p, (processChunk mn node actx s c).pending = some p → p.text.length < mn) := by
  unfold processChunk
  rw [hforce, Bool.or_false]
  split
  · next hcond =>
    rw [decide_eq_true_eq] at hcond
    refine ⟨hs, ?_⟩
    intro p hps
    rcases Option.some.inj hps with rfl
    exact hcond
  · refine ⟨?_, by intro p hps; cases hps⟩
    intro x hx
    rcases List.mem_append.mp hx with hxx | hxx
    · exact hs x hxx
    · rcases List.mem_singleton.mp hxx with rfl
      rw [merged_chunk_text, List.length_append]
      cases hps : s.pending with
      | none =>
        have he : pendingText s = [] := by
          unfold pendingText
          rw [hps]
        rw [he]
        simp only [List.length_nil, Nat.zero_add]
        omega
      | some p =>
        have he : pendingText s = p.text := by
          unfold pendingText
          rw [hps]
        have hpl := hp p hps
        rw [he]
        omega

theorem processLeaf_bound (mn mx : Nat) (node : Node) (actx : Option Chunk)
    (hforce : is_force_prepend_chunk node = false) :
    ∀ (cs : List Chunk) (s : SegState),
      (∀ c ∈ cs, c.text.length ≤ mx) →
      (∀ x ∈ s.final_chunks, x.text.length ≤ mx + (mn - 1)) →
      (∀ p, s.pending = some p → p.text.length < mn) →
      (∀ x ∈ (processLeaf mn node actx s cs).final_chunks, x.text.length ≤ mx + (mn - 1)) ∧
      (∀ p, (processLeaf mn node actx s cs).pending = some p → p.text.length < mn) := by
  intro cs
  induction cs with
  | nil => intro s _ hs hp; exact ⟨hs, hp⟩
  | cons c cs ih =>
    intro s hcs hs hp
    rcases processChunk_bound mn mx node actx s c hforce
      (hcs c (List.mem_cons_self c cs)) hs hp with ⟨hs1, hp1⟩
    exact ih (processChunk mn node actx s c)
      (fun x hx => hcs x (List.mem_cons_of_mem c hx)) hs1 hp1

theorem traverse_bound (env : Env) (cfg : Config) (hm : 0 < cfg.max_text_length) :
    (∀ n : Node, ∀ anc s s', _traverse env cfg anc n s = some s' →
      subtree_has_lim n = false →
      (∀ x ∈ s.final_chunks,
        x.text.length ≤ cfg.max_text_length + (cfg.min_text_length - 1)) →
      (∀ p, s.pending = some p → p.text.length < cfg.min_text_length) →
      (∀ x ∈ s'.final_chunks,
        x.text.length ≤ cfg.max_text_length + (cfg.min_text_length - 1)) ∧
      (∀ p, s'.pending = some p → p.text.length < cfg.min_text_length)) ∧
    (∀ ns : NodeList, ∀ anc s s', _traverseList env cfg anc ns s = some s' →
      children_have_lim ns = false →
      (∀ x ∈ s.final_chunks,
        x.text.length ≤ cfg.max_text_length + (cfg.min_text_length - 1)) →
      (∀ p, s.pending = some p → p.text.length < cfg.min_text_length) →
      (∀ x ∈ s'.final_chunks,
        x.text.length ≤ cfg.max_text_length + (cfg.min_text_length - 1)) ∧
      (∀ p, s'.pending = some p → p.text.length < cfg.min_text_length)) := by
  apply node_nodeList_ind
  · intro tg st tx cs ihQ anc s s' h hlim hs hp
    have hlim2 : (st == some "lim") = false ∧ children_have_lim cs = false := by
      have hunf : subtree_has_lim (Node.mk tg st tx cs)
          = ((st == some "lim") || children_have_lim cs) := rfl
      rw [hunf, Bool.or_eq_false_iff] at hlim
      exact hlim
    by_cases hleaf : isLeafNode cfg.sub_chunk_tables anc (Node.mk tg st tx cs) = true
    · rw [_traverse_leaf env cfg anc _ s hleaf] at h
      rcases leafStep_some env cfg anc _ s s' h with ⟨actx, rfl⟩
      apply processLeaf_bound cfg.min_text_length cfg.max_text_length _ actx
        (show is_force_prepend_chunk (Node.mk tg st tx cs) = false from hlim2.1)
        _ _ _ hs hp
      intro c hc
      apply length_le_of_mem_text_splits cfg.max_text_length hm
        (node_text env cfg.xml_mode cfg.whitespace_normalize_text (Node.mk tg st tx cs))
      rw [← build_chunks_map_text]
      exact List.mem_map_of_mem Chunk.text hc
    · rw [_traverse_branch env cfg anc _ s (Bool.not_eq_true _ ▸ hleaf)] at h
      exact ihQ _ _ _ h hlim2.2 hs hp
  · intro anc s s' h _ hs hp
    cases h
    exact ⟨hs, hp⟩
  · intro n ns ihP ihQ anc s s' h hlim hs hp
    have hunf : children_have_lim (NodeList.cons n ns)
        = (subtree_has_lim n || children_have_lim ns) := rfl
    rw [hunf, Bool.or_eq_false_iff] at hlim
    rw [_traverseList_cons] at h
    rcases ht : _traverse env cfg anc n s with _ | s1
    · rw [ht] at h
      cases h
    · rw [ht] at h
      rcases ihP _ _ _ ht hlim.1 hs hp with ⟨hs1, hp1⟩
      exact ihQ _ _ _ h hlim.2 hs1 hp1

/-- Claim C1, amended: every window `_build_chunks` produces has text
length at most `max_text_length`, but a returned chunk that absorbed the
pending buffer may exceed that bound (and with force-merge `"lim"`
markers the excess is unbounded).  When no node of the tree carries the
`"lim"` marker, the pending buffer always holds a chunk shorter than
`min_text_length`, so every returned chunk's text length is at most
`max_text_length + (min_text_length - 1)`. -/
theorem claim_C1_amended (env : Env) (cfg : Config) (node : Node) (l : List Chunk)
    (hm : 0 < cfg.max_text_length) (hlim : subtree_has_lim node = false)
    (h : get_chunks env cfg node = some l) :
    (∀ c ∈ l, c.text.length ≤ cfg.max_text_length + (cfg.min_text_length - 1)) ∧
    (∀ (xm ws : Bool) (n2 : Node), ∀ c ∈ _build_chunks env xm cfg.max_text_length ws n2,
      c.text.length ≤ cfg.max_text_length) := by
  constructor
  · rcases get_chunks_eq env cfg node l h with ⟨s', ht, rfl⟩
    rcases (traverse_bound env cfg hm).1 node [] _ s' ht hlim
      (by intro x hx; cases hx) (by intro p hp; cases hp) with ⟨hs, hp⟩
    intro c hc
    rcases List.mem_append.mp hc with hcf | hcp
    · exact hs c hcf
    · cases hps : s'.pending with
      | none =>
        rw [hps] at hcp
        cases hcp
      | some p =>
        rw [hps] at hcp
        rcases List.mem_singleton.mp hcp with rfl
        have := hp c hps
        omega
  · intro xm ws n2 c hc
    apply length_le_of_mem_text_splits cfg.max_text_length hm
      (node_text env xm ws n2)
    rw [← build_chunks_map_text]
    exact List.mem_map_of_mem Chunk.text hc

/-- Claim C1 witness for the amended statement: the concrete merged
chunk of length 4 meets the bound `max + (min - 1) = 3 + 1` exactly. -/
theorem claim_C1_witness :
    (Chunk.mk "b" ['a', 'b', 'c', 'd'] "b" "s" "" none).text.length
      ≤ cfg1.max_text_length + (cfg1.min_text_length - 1) :=
  (claim_C1_amended testEnv cfg1 tree1
      [Chunk.mk "b" ['a', 'b', 'c', 'd'] "b" "s" "" none]
      (by decide) (by decide) rfl).1 _ (by simp)

/-- Claim C10 is a code bug: on a structural leaf whose context ancestor
renders to the empty string in xml hierarchy mode, line 130's
`_build_chunks(ancestor_node, ...)[0]` indexes an empty list and raises
`IndexError`, though the spec requires degenerate inputs not to raise.
The embedding returns `none` (the exception) at this input. -/
theorem claim_C10_code_bug : get_chunks testEnv cfgC10 rootC10 = none := rfl

theorem traverse_markerless (env : Env) (cfg : Config) :
    (∀ n : Node, ∀ anc s, (∀ a ∈ anc, a.struct = none) →
      subtree_has_structural n = false →
      (cfg.sub_chunk_tables = true ∨ subtree_has_table n = false) →
      _traverse env cfg anc n s = some s) ∧
    (∀ ns : NodeList, ∀ anc s, (∀ a ∈ anc, a.struct = none) →
      children_have_structural ns = false →
      (cfg.sub_chunk_tables = true ∨ children_have_table ns = false) →
      _traverseList env cfg anc ns s = some s) := by
  apply node_nodeList_ind
  · intro tg st tx cs ihQ anc s hanc hsub htab
    simp only [subtree_has_structural, Bool.or_eq_false_iff] at hsub
    have h4 : (tg == TABLE_NAME && !cfg.sub_chunk_tables) = false := by
      rcases htab with h | h
      · simp [h]
      · simp only [subtree_has_table, Bool.or_eq_false_iff] at h
        simp [h.1]
    have h3 : is_descendant_of_structural anc = false := by
      simp only [is_descendant_of_structural, List.any_eq_false]
      intro a ha
      simp [hanc a ha]
    have hleaf : isLeafNode cfg.sub_chunk_tables anc (Node.mk tg st tx cs) = false := by
      simp [isLeafNode, is_structural, has_structural_children, Node.struct, Node.tag,
        Node.children, h4, h3, hsub.1, hsub.2]
    rw [_traverse_branch env cfg anc _ s hleaf]
    apply ihQ
    · intro a ha
      rcases List.mem_cons.mp ha with rfl | ha
      · simpa [Node.struct] using hsub.1
      · exact hanc a ha
    · exact hsub.2
    · rcases htab with h | h
      · exact Or.inl h
      · right
        simp only [subtree_has_table, Bool.or_eq_false_iff] at h
        exact h.2
  · intro anc s _ _ _
    rfl
  · intro n ns ihP ihQ anc s hanc hsub htab
    simp only [children_have_structural, Bool.or_eq_false_iff] at hsub
    have htabn : cfg.sub_chunk_tables = true ∨ subtree_has_table n = false := by
      rcases htab with h | h
      · exact Or.inl h
      · simp only [children_have_table, Bool.or_eq_false_iff] at h
        exact Or.inr h.1
    have htabns : cfg.sub_chunk_tables = true ∨ children_have_table ns = false := by
      rcases htab with h | h
      · exact Or.inl h
      · simp only [children_have_table, Bool.or_eq_false_iff] at h
        exact Or.inr h.2
    rw [_traverseList_cons, ihP anc s hanc hsub.1 htabn]
    exact ihQ anc s hanc hsub.2 htabns

/-- Claim C9, amended: a tree with no structure marker anywhere yields
zero chunks provided it also contains no table-typed node (or table
sub-chunking is enabled); a table node is a leaf regardless of
markers when `sub_chunk_tables` is false. -/
theorem claim_C9_amended (env : Env) (cfg : Config) (node : Node)
    (hs : subtree_has_structural node = false)
    (ht : cfg.sub_chunk_tables = true ∨ subtree_has_table node = false) :
    get_chunks env cfg node = some [] := by
  unfold get_chunks
  rw [(traverse_markerless env cfg).1 node [] _ (by intro a ha; cases ha) hs ht]
  rfl

/-- Claim C9 counterexample: a markerless table node with default
configuration (`sub_chunk_tables = false`) yields one chunk, not
zero. -/
theorem claim_C9_counterexample :
    subtree_has_structural tblC9 = false ∧ cfgC9.sub_chunk_tables = false ∧
      (get_chunks testEnv cfgC9 tblC9).map List.length = some 1 ∧
      (get_chunks testEnv cfgC9 tblC9).map List.length ≠ some 0 := by
  decide

/-- Claim C9 witness for the amended statement. -/
theorem claim_C9_witness : get_chunks testEnv cfgC9 plainTree = some [] :=
  claim_C9_amended testEnv cfgC9 plainTree (by decide) (Or.inr (by decide))

/-- Claim C8, amended: a table-typed node with `sub_chunk_tables = false`
is processed as a single leaf (its one rendering split by
`_build_chunks`), regardless of its contents; with
`sub_chunk_tables = true` the traversal descends into its children
unless the structural rules make it a leaf anyway (it carries a marker
with no marked descendant, or is an orphaned descendant of a marked
ancestor). -/
theorem claim_C8_amended (env : Env) (cfg : Config) (anc : List Node) (node : Node)
    (s : SegState) (htag : node.tag = TABLE_NAME) :
    (cfg.sub_chunk_tables = false →
      _traverse env cfg anc node s = leafStep env cfg anc node s) ∧
    (cfg.sub_chunk_tables = true →
      (is_structural node && !has_structural_children node) = false →
      (is_descendant_of_structural anc && !has_structural_children node) = false →
      _traverse env cfg anc node s = _traverseList env cfg (node :: anc) node.children s) := by
  constructor
  · intro hsct
    apply _traverse_leaf
    simp [isLeafNode, htag, hsct]
  · intro hsct htext horphan
    apply _traverse_branch
    unfold isLeafNode
    rw [hsct, htext, horphan]
    simp

/-- Claim C8 counterexample: a marker-carrying table with a markerless
child, under `sub_chunk_tables = true`, is still classified a leaf — the
traversal does not descend into the table's internal structure. -/
theorem claim_C8_counterexample :
    tblC8.tag = TABLE_NAME ∧ cfgC8.sub_chunk_tables = true ∧
      stateTexts (_traverse testEnv cfgC8 [] tblC8 { final_chunks := [], pending := none })
        ≠ stateTexts (_traverseList testEnv cfgC8 [tblC8] tblC8.children
            { final_chunks := [], pending := none }) := by
  decide

/-- Claim C8 witness for the amended statement: the descent case is
exercised at a marker-carrying table that also has a marker-carrying
child, which the structural rules leave a branch. -/
theorem claim_C8_witness :
    (_traverse testEnv cfgC8f [] tblC9 { final_chunks := [], pending := none }
      = leafStep testEnv cfgC8f [] tblC9 { final_chunks := [], pending := none }) ∧
    (_traverse testEnv cfgC8 [] tblDeep { final_chunks := [], pending := none }
      = _traverseList testEnv cfgC8 [tblDeep] tblDeep.children
          { final_chunks := [], pending := none }) :=
  ⟨(claim_C8_amended testEnv cfgC8f [] tblC9 _ rfl).1 rfl,
    (claim_C8_amended testEnv cfgC8 [] tblDeep _ rfl).2 rfl (by decide) (by decide)⟩

theorem structural_iff_descendants :
    (∀ n : Node, subtree_has_structural n = true ↔
      n.struct.isSome = true ∨ ∃ d ∈ descendants n, d.struct.isSome = true) ∧
    (∀ ns : NodeList, children_have_structural ns = true ↔
      ∃ d ∈ descendantsList ns, d.struct.isSome = true) := by
  apply node_nodeList_ind
  · intro tg st tx cs ihQ
    have hunf : subtree_has_structural (Node.mk tg st tx cs)
        = (st.isSome || children_have_structural cs) := rfl
    rw [hunf, Bool.or_eq_true, ihQ]
    exact Iff.rfl
  · constructor
    · intro h
      cases h
    · rintro ⟨d, hd, _⟩
      cases hd
  · intro n ns ihP ihQ
    have hunf : children_have_structural (NodeList.cons n ns)
        = (subtree_has_structural n || children_have_structural ns) := rfl
    rw [hunf, Bool.or_eq_true, ihP, ihQ]
    constructor
    · rintro ((hs | ⟨d, hd, hds⟩) | ⟨d, hd, hds⟩)
      · exact ⟨n, by simp [descendantsList], hs⟩
      · refine ⟨d, ?_, hds⟩
        simp only [descendantsList, List.mem_cons, List.mem_append]
        exact Or.inr (Or.inl hd)
      · refine ⟨d, ?_, hds⟩
        simp only [descendantsList, List.mem_cons, List.mem_append]
        exact Or.inr (Or.inr hd)
    · rintro ⟨d, hd, hds⟩
      simp only [descendantsList, List.mem_cons, List.mem_append] at hd
      rcases hd with rfl | hd | hd
      · exact Or.inl (Or.inl hds)
      · exact Or.inl (Or.inr ⟨d, hd, hds⟩)
      · exact Or.inr ⟨d, hd, hds⟩

theorem has_structural_children_eq_false_iff (node : Node) :
    has_structural_children node = false ↔ ∀ d ∈ descendants node, d.struct = none := by
  cases node with
  | mk tg st tx cs =>
    show children_have_structural cs = false ↔ ∀ d ∈ descendantsList cs, d.struct = none
    rw [← Bool.not_eq_true, structural_iff_descendants.2 cs]
    constructor
    · intro h d hd
      cases hds : d.struct with
      | none => rfl
      | some v => exact absurd ⟨d, hd, by simp [hds]⟩ h
    · rintro h ⟨d, hd, hds⟩
      rw [h d hd] at hds
      cases hds

theorem is_descendant_iff (anc : List Node) :
    is_descendant_of_structural anc = true ↔ ∃ a ∈ anc, a.struct.isSome = true := by
  simp [is_descendant_of_structural, List.any_eq_true]

/-- Claim C4: a node is classified a leaf iff it is a table-typed node
with table sub-chunking disabled, or carries a structure marker with no
marker-carrying descendant, or is a descendant of a marker-carrying
ancestor with no marker-carrying descendant (the classification takes no
renderer and no text length); when the classification is negative the
traversal recurses into the children in document order and emits
nothing for the node itself, and when positive it runs the leaf step. -/
theorem claim_C4_leaf_classification :
    (∀ (sct : Bool) (anc : List Node) (node : Node),
      isLeafNode sct anc node = true ↔ spec_is_leaf sct anc node) ∧
    (∀ (env : Env) (cfg : Config) (anc : List Node) (node : Node) (s : SegState),
      isLeafNode cfg.sub_chunk_tables anc node = false →
      _traverse env cfg anc node s = _traverseList env cfg (node :: anc) node.children s) ∧
    (∀ (env : Env) (cfg : Config) (anc : List Node) (node : Node) (s : SegState),
      isLeafNode cfg.sub_chunk_tables anc node = true →
      _traverse env cfg anc node s = leafStep env cfg anc node s) := by
  refine ⟨?_, fun env cfg anc node s h => _traverse_branch env cfg anc node s h,
    fun env cfg anc node s h => _traverse_leaf env cfg anc node s h⟩
  intro sct anc node
  unfold isLeafNode spec_is_leaf
  rw [show is_structural node = node.struct.isSome from rfl]
  simp only [Bool.or_eq_true, Bool.and_eq_true, beq_iff_eq, Bool.not_eq_true',
    has_structural_children_eq_false_iff, is_descendant_iff]
  rw [or_assoc]

/-- Claim C4 witness at concrete nodes. -/
theorem claim_C4_witness :
    (isLeafNode false [] nA = true ↔ spec_is_leaf false [] nA) ∧
    (_traverse testEnv cfg1 [] tree1 { final_chunks := [], pending := none }
      = _traverseList testEnv cfg1 [tree1] tree1.children
          { final_chunks := [], pending := none }) ∧
    (_traverse testEnv cfg1 [] nA { final_chunks := [], pending := none }
      = leafStep testEnv cfg1 [] nA { final_chunks := [], pending := none }) :=
  ⟨claim_C4_leaf_classification.1 false [] nA,
    claim_C4_leaf_classification.2.1 testEnv cfg1 [] tree1 _ (by decide),
    claim_C4_leaf_classification.2.2 testEnv cfg1 [] nA _ (by decide)⟩

set_option maxRecDepth 4000 in
/-- Claim C6: `_build_chunks` splits the rendered text into consecutive
non-overlapping windows whose in-order concatenation is the rendered
text, every window except possibly the last of length exactly
`max_text_length` and all of length at most `max_text_length`; empty
rendered text yields zero chunks; and a rendered text of 250 characters
with `max_text_length = 100` yields exactly the lengths 100, 100, 50. -/
theorem claim_C6_build_chunks (env : Env) (xm : Bool) (m : Nat) (ws : Bool) (node : Node)
    (hm : 0 < m) :
    ((_build_chunks env xm m ws node).map Chunk.text).flatten = node_text env xm ws node ∧
    (∀ t ∈ (_build_chunks env xm m ws node).map Chunk.text, t.length ≤ m) ∧
    (∀ t ∈ ((_build_chunks env xm m ws node).map Chunk.text).dropLast, t.length = m) ∧
    (node_text env xm ws node = [] → _build_chunks env xm m ws node = []) ∧
    ((_build_chunks testEnv false 100 true node250).map (fun c => c.text.length)
      = [100, 100, 50]) := by
  refine ⟨?_, ?_, ?_, ?_, ?_⟩
  · rw [build_chunks_map_text, flatten_text_splits _ hm]
  · rw [build_chunks_map_text]
    exact length_le_of_mem_text_splits m hm _
  · rw [build_chunks_map_text]
    exact length_eq_of_mem_dropLast_text_splits m hm _
  · intro hempty
    unfold _build_chunks
    rw [hempty]
    rfl
  · decide

/-- Claim C6 witness at a concrete leaf. -/
theorem claim_C6_witness :
    ((_build_chunks testEnv false 3 true nB).map Chunk.text).flatten
      = node_text testEnv false true nB :=
  (claim_C6_build_chunks testEnv false 3 true nB (by decide)).1

theorem processLeaf_parents (mn : Nat) (node : Node) (actx : Option Chunk) :
    ∀ (cs : List Chunk) (s : SegState),
      (∀ x ∈ (processLeaf mn node actx s cs).final_chunks,
        x ∈ s.final_chunks ∨ x.parent = actx) ∧
      (∀ q, (processLeaf mn node actx s cs).pending = some q →
        s.pending = some q ∨ q.parent = actx) := by
  intro cs
  induction cs with
  | nil => intro s; exact ⟨fun x hx => Or.inl hx, fun q hq => Or.inl hq⟩
  | cons c cs ih =>
    intro s
    rcases ih (processChunk mn node actx s c) with ⟨ihf, ihp⟩
    have hstep : (∀ x ∈ (processChunk mn node actx s c).final_chunks,
        x ∈ s.final_chunks ∨ x.parent = actx) ∧
        (∀ q, (processChunk mn node actx s c).pending = some q →
          s.pending = some q ∨ q.parent = actx) := by
      unfold processChunk
      split
      · refine ⟨fun x hx => Or.inl hx, ?_⟩
        intro q hq
        rcases Option.some.inj hq with rfl
        exact Or.inr (merged_chunk_parent actx s c)
      · refine ⟨?_, by intro q hq; cases hq⟩
        intro x hx
        rcases List.mem_append.mp hx with h | h
        · exact Or.inl h
        · rcases List.mem_singleton.mp h with rfl
          exact Or.inr (merged_chunk_parent actx s c)
    constructor
    · intro x hx
      rcases ihf x hx with h | h
      · exact hstep.1 x h
      · exact Or.inr h
    · intro q hq
      rcases ihp q hq with h | h
      · exact hstep.2 q h
      · exact Or.inr h

theorem leafStep_no_context (env : Env) (cfg : Config) (anc : List Node) (node : Node)
    (s : SegState)
    (hc : (cfg.xml_mode && decide (0 < cfg.parent_hierarchy_levels)) = false) :
    leafStep env cfg anc node s
      = some (processLeaf cfg.min_text_length node none s
          (_build_chunks env cfg.xml_mode cfg.max_text_length
            cfg.whitespace_normalize_text node)) := by
  unfold leafStep
  rw [hc]
  rfl

theorem traverse_parent_none (env : Env) (cfg : Config)
    (hc : (cfg.xml_mode && decide (0 < cfg.parent_hierarchy_levels)) = false) :
    (∀ n : Node, ∀ anc s s', _traverse env cfg anc n s = some s' →
      (∀ x ∈ s.final_chunks, x.parent = none) →
      (∀ q, s.pending = some q → q.parent = none) →
      (∀ x ∈ s'.final_chunks, x.parent = none) ∧
      (∀ q, s'.pending = some q → q.parent = none)) ∧
    (∀ ns : NodeList, ∀ anc s s', _traverseList env cfg anc ns s = some s' →
      (∀ x ∈ s.final_chunks, x.parent = none) →
      (∀ q, s.pending = some q → q.parent = none) →
      (∀ x ∈ s'.final_chunks, x.parent = none) ∧
      (∀ q, s'.pending = some q → q.parent = none)) := by
  apply node_nodeList_ind
  · intro tg st tx cs ihQ anc s s' h hs hp
    by_cases hleaf : isLeafNode cfg.sub_chunk_tables anc (Node.mk tg st tx cs) = true
    · rw [_traverse_leaf env cfg anc _ s hleaf, leafStep_no_context env cfg anc _ s hc] at h
      rcases Option.some.inj h with rfl
      rcases processLeaf_parents cfg.min_text_length _ none _ s with ⟨hf, hq⟩
      constructor
      · intro x hx
        rcases hf x hx with h | h
        · exact hs x h
        · exact h
      · intro q hqs
        rcases hq q hqs with h | h
        · exact hp q h
        · exact h
    · rw [_traverse_branch env cfg anc _ s (Bool.not_eq_true _ ▸ hleaf)] at h
      exact ihQ _ _ _ h hs hp
  · intro anc s s' h hs hp
    cases h
    exact ⟨hs, hp⟩
  · intro n ns ihP ihQ anc s s' h hs hp
    rw [_traverseList_cons] at h
    rcases ht : _traverse env cfg anc n s with _ | s1
    · rw [ht] at h
      cases h
    · rw [ht] at h
      rcases ihP _ _ _ ht hs hp with ⟨hs1, hp1⟩
      exact ihQ _ _ _ h hs1 hp1

/-- Claim C7: with `parent_hierarchy_levels = 0` every returned chunk
has no parent; in xml mode with `parent_hierarchy_levels > 0`, every
chunk a leaf contributes (emitted or pending) carries as parent the one
context chunk that heads the split of the rendering of the ancestor
`parent_hierarchy_levels` levels up, clipped at the root. -/
theorem claim_C7_parent_context :
    (∀ (env : Env) (cfg : Config) (node : Node) (l : List Chunk),
      cfg.parent_hierarchy_levels = 0 → get_chunks env cfg node = some l →
      ∀ c ∈ l, c.parent = none) ∧
    (∀ (env : Env) (cfg : Config) (anc : List Node) (node : Node) (s s' : SegState),
      cfg.xml_mode = true → 0 < cfg.parent_hierarchy_levels →
      isLeafNode cfg.sub_chunk_tables anc node = true →
      _traverse env cfg anc node s = some s' →
      ∃ ctx, (_build_chunks env cfg.xml_mode cfg.max_text_length
          cfg.whitespace_normalize_text
          (xml_nth_ancestor node anc cfg.parent_hierarchy_levels)).head? = some ctx ∧
        (∀ c ∈ s'.final_chunks, c ∈ s.final_chunks ∨ c.parent = some ctx) ∧
        (∀ q, s'.pending = some q → s.pending = some q ∨ q.parent = some ctx)) := by
  constructor
  · intro env cfg node l hphl h c hc
    rcases get_chunks_eq env cfg node l h with ⟨s', ht, rfl⟩
    have hcond : (cfg.xml_mode && decide (0 < cfg.parent_hierarchy_levels)) = false := by
      rw [hphl]
      simp
    rcases (traverse_parent_none env cfg hcond).1 node [] _ s' ht
      (by intro x hx; cases hx) (by intro q hq; cases hq) with ⟨hs, hp⟩
    rcases List.mem_append.mp hc with hcf | hcp
    · exact hs c hcf
    · cases hps : s'.pending with
      | none =>
        rw [hps] at hcp
        cases hcp
      | some p =>
        rw [hps] at hcp
        rcases List.mem_singleton.mp hcp with rfl
        exact hp c hps
  · intro env cfg anc node s s' hxml hphl hleaf h
    rw [_traverse_leaf env cfg anc node s hleaf] at h
    unfold leafStep at h
    rw [show (cfg.xml_mode && decide (0 < cfg.parent_hierarchy_levels)) = true by
      simp [hxml, hphl]] at h
    simp only [if_true] at h
    rcases hbc : _build_chunks env cfg.xml_mode cfg.max_text_length
        cfg.whitespace_normalize_text
        (xml_nth_ancestor node anc cfg.parent_hierarchy_levels) with _ | ⟨a, rest⟩
    · rw [hbc] at h
      cases h
    · rw [hbc] at h
      rcases Option.some.inj h with rfl
      refine ⟨a, by simp [hbc], ?_⟩
      exact processLeaf_parents cfg.min_text_length node (some a) _ s

/-- Claim C7 witness: part one at a `parent_hierarchy_levels = 0` run,
part two at a concrete xml-mode leaf with one ancestor. -/
theorem claim_C7_witness :
    (Chunk.mk "b" ['a', 'b', 'c', 'd'] "b" "s" "" none).parent = none ∧
    (∃ ctx, (_build_chunks testEnv cfgX.xml_mode cfgX.max_text_length
        cfgX.whitespace_normalize_text
        (xml_nth_ancestor nA [rootP] cfgX.parent_hierarchy_levels)).head? = some ctx ∧
      (∀ c ∈ (SegState.mk []
          (some (Chunk.mk "a" ['a'] "a" "s" ""
            (some (Chunk.mk "r" ['R', 'R'] "r" "" "" none))))).final_chunks,
        c ∈ (SegState.mk ([] : List Chunk) none).final_chunks ∨ c.parent = some ctx) ∧
      (∀ q, (SegState.mk []
          (some (Chunk.mk "a" ['a'] "a" "s" ""
            (some (Chunk.mk "r" ['R', 'R'] "r" "" "" none))))).pending = some q →
        (SegState.mk ([] : List Chunk) none).pending = some q ∨ q.parent = some ctx)) :=
  ⟨claim_C7_parent_context.1 testEnv cfg1 tree1
      [Chunk.mk "b" ['a', 'b', 'c', 'd'] "b" "s" "" none] rfl rfl _ (by simp),
    claim_C7_parent_context.2 testEnv cfgX [rootP] nA
      (SegState.mk [] none) _ rfl (by decide) (by decide) rfl⟩

theorem prefixOf_refl (a : List Char) : prefixOf a a := ⟨[], by simp⟩

theorem prefixOf_trans (a b c : List Char) (h1 : prefixOf a b) (h2 : prefixOf b c) :
    prefixOf a c := by
  rcases h1 with ⟨t1, rfl⟩
  rcases h2 with ⟨t2, rfl⟩
  exact ⟨t1 ++ t2, by rw [List.append_assoc]⟩

theorem prefixOf_length_le (a b : List Char) (h : prefixOf a b) : a.length ≤ b.length := by
  rcases h with ⟨t, rfl⟩
  simp

theorem processLeaf_force (mn : Nat) (node : Node) (actx : Option Chunk)
    (hforce : is_force_prepend_chunk node = true) :
    ∀ (cs : List Chunk) (s : SegState),
      (processLeaf mn node actx s cs).final_chunks = s.final_chunks ∧
      pendingText (processLeaf mn node actx s cs)
        = pendingText s ++ (cs.map Chunk.text).flatten := by
  intro cs
  induction cs with
  | nil => intro s; exact ⟨rfl, by simp [processLeaf]⟩
  | cons c cs ih =>
    intro s
    have hstep : processChunk mn node actx s c
        = { final_chunks := s.final_chunks, pending := some (merged_chunk actx s c) } := by
      unfold processChunk
      rw [hforce, Bool.or_true]
      rfl
    rcases ih (processChunk mn node actx s c) with ⟨ihf, ihp⟩
    constructor
    · show (processLeaf mn node actx (processChunk mn node actx s c) cs).final_chunks = _
      rw [ihf, hstep]
    · show pendingText (processLeaf mn node actx (processChunk mn node actx s c) cs) = _
      rw [ihp, hstep]
      have hpend : pendingText (SegState.mk s.final_chunks
          (some (merged_chunk actx s c))) = (merged_chunk actx s c).text := rfl
      rw [hpend, merged_chunk_text]
      simp [List.append_assoc]

theorem traverse_lim_leaf (env : Env) (cfg : Config) (node : Node) (anc : List Node)
    (s s' : SegState) (hm : 0 < cfg.max_text_length)
    (hlim : is_force_prepend_chunk node = true)
    (hleaf : isLeafNode cfg.sub_chunk_tables anc node = true)
    (h : _traverse env cfg anc node s = some s') :
    s'.final_chunks = s.final_chunks ∧
    pendingText s' = pendingText s
      ++ node_text env cfg.xml_mode cfg.whitespace_normalize_text node := by
  rw [_traverse_leaf env cfg anc node s hleaf] at h
  rcases leafStep_some env cfg anc node s s' h with ⟨actx, rfl⟩
  rcases processLeaf_force cfg.min_text_length node actx hlim
    (_build_chunks env cfg.xml_mode cfg.max_text_length
      cfg.whitespace_normalize_text node) s with ⟨h1, h2⟩
  refine ⟨h1, ?_⟩
  rw [h2, build_chunks_map_text, flatten_text_splits _ hm]

theorem processLeaf_pending (mn : Nat) (node : Node) (actx : Option Chunk) :
    ∀ (cs : List Chunk) (s : SegState) (p : Chunk), s.pending = some p →
      (∀ c ∈ cs, c.text ≠ []) →
      ((processLeaf mn node actx s cs).final_chunks = s.final_chunks ∧
        ∃ q, (processLeaf mn node actx s cs).pending = some q ∧ prefixOf p.text q.text) ∨
      (∃ c Δ, (processLeaf mn node actx s cs).final_chunks = s.final_chunks ++ c :: Δ ∧
        prefixOf p.text c.text ∧ p.text.length < c.text.length) := by
  intro cs
  induction cs with
  | nil =>
    intro s p hp _
    exact Or.inl ⟨rfl, p, hp, prefixOf_refl p.text⟩
  | cons c cs ih =>
    intro s p hp hne
    have hptext : pendingText s = p.text := by
      unfold pendingText
      rw [hp]
    have hmtext : (merged_chunk actx s c).text = p.text ++ c.text := by
      rw [merged_chunk_text, hptext]
    have hpc : prefixOf p.text (merged_chunk actx s c).text := ⟨c.text, hmtext⟩
    have hlt : p.text.length < (merged_chunk actx s c).text.length := by
      rw [hmtext, List.length_append]
      have := List.length_pos.mpr (hne c (List.mem_cons_self c cs))
      omega
    show ((processLeaf mn node actx (processChunk mn node actx s c) cs).final_chunks = _ ∧
      ∃ q, (processLeaf mn node actx (processChunk mn node actx s c) cs).pending = some q ∧ _) ∨
      (∃ c' Δ, (processLeaf mn node actx (processChunk mn node actx s c) cs).final_chunks
        = _ ∧ _)
    have hcases : processChunk mn node actx s c
        = { final_chunks := s.final_chunks, pending := some (merged_chunk actx s c) } ∨
        processChunk mn node actx s c
        = { final_chunks := s.final_chunks ++ [merged_chunk actx s c], pending := none } := by
      unfold processChunk
      split
      · exact Or.inl rfl
      · exact Or.inr rfl
    rcases hcases with hstep | hstep
    · rw [hstep]
      rcases ih (SegState.mk s.final_chunks (some (merged_chunk actx s c)))
        (merged_chunk actx s c) rfl
        (fun x hx => hne x (List.mem_cons_of_mem c hx)) with
        ⟨hfin, q, hq, hpq⟩ | ⟨c', Δ, hfin, hpc', hlt'⟩
      · exact Or.inl ⟨hfin, q, hq, prefixOf_trans _ _ _ hpc hpq⟩
      · exact Or.inr ⟨c', Δ, hfin, prefixOf_trans _ _ _ hpc hpc', Nat.lt_trans hlt hlt'⟩
    · rw [hstep]
      rcases processLeaf_final_mono mn node actx cs
        { final_chunks := s.final_chunks ++ [merged_chunk actx s c], pending := none }
        with ⟨Δ, hΔ⟩
      refine Or.inr ⟨merged_chunk actx s c, Δ, ?_, hpc, hlt⟩
      rw [hΔ]
      simp

theorem traverse_pending (env : Env) (cfg : Config) (hm : 0 < cfg.max_text_length) :
    (∀ n : Node, ∀ anc s s' p, _traverse env cfg anc n s = some s' → s.pending = some p →
      (s'.final_chunks = s.final_chunks ∧
        ∃ q, s'.pending = some q ∧ prefixOf p.text q.text) ∨
      (∃ c Δ, s'.final_chunks = s.final_chunks ++ c :: Δ ∧
        prefixOf p.text c.text ∧ p.text.length < c.text.length)) ∧
    (∀ ns : NodeList, ∀ anc s s' p, _traverseList env cfg anc ns s = some s' →
      s.pending = some p →
      (s'.final_chunks = s.final_chunks ∧
        ∃ q, s'.pending = some q ∧ prefixOf p.text q.text) ∨
      (∃ c Δ, s'.final_chunks = s.final_chunks ++ c :: Δ ∧
        prefixOf p.text c.text ∧ p.text.length < c.text.length)) := by
  apply node_nodeList_ind
  · intro tg st tx cs ihQ anc s s' p h hp
    by_cases hleaf : isLeafNode cfg.sub_chunk_tables anc (Node.mk tg st tx cs) = true
    · rw [_traverse_leaf env cfg anc _ s hleaf] at h
      rcases leafStep_some env cfg anc _ s s' h with ⟨actx, rfl⟩
      apply processLeaf_pending cfg.min_text_length _ actx _ s p hp
      intro c hc
      apply ne_nil_of_mem_text_splits cfg.max_text_length hm
        (node_text env cfg.xml_mode cfg.whitespace_normalize_text (Node.mk tg st tx cs))
      rw [← build_chunks_map_text]
      exact List.mem_map_of_mem Chunk.text hc
    · rw [_traverse_branch env cfg anc _ s (Bool.not_eq_true _ ▸ hleaf)] at h
      exact ihQ _ _ _ _ h hp
  · intro anc s s' p h hp
    cases h
    exact Or.inl ⟨rfl, p, hp, prefixOf_refl p.text⟩
  · intro n ns ihP ihQ anc s s' p h hp
    rw [_traverseList_cons] at h
    rcases ht : _traverse env cfg anc n s with _ | s1
    · rw [ht] at h
      cases h
    · rw [ht] at h
      rcases ihP _ _ _ _ ht hp with ⟨hfin1, q, hq1, hpq⟩ | ⟨c, Δ, hfin1, hpc, hlt⟩
      · rcases ihQ _ _ _ _ h hq1 with ⟨hfin2, q', hq2, hq'⟩ | ⟨c, Δ, hfin2, hpc, hlt⟩
        · exact Or.inl ⟨by rw [hfin2, hfin1], q', hq2, prefixOf_trans _ _ _ hpq hq'⟩
        · refine Or.inr ⟨c, Δ, by rw [hfin2, hfin1], prefixOf_trans _ _ _ hpq hpc, ?_⟩
          exact Nat.lt_of_le_of_lt (prefixOf_length_le _ _ hpq) hlt
      · rcases (traverse_final_mono env cfg).2 ns _ _ _ h with ⟨Δ2, hΔ2⟩
        refine Or.inr ⟨c, Δ ++ Δ2, ?_, hpc, hlt⟩
        rw [hΔ2, hfin1]
        simp

/-- Claim C5: a force-merge (`"lim"`) leaf emits nothing on its own —
all its rendered text is carried into the pending buffer behind any
text already pending; any pending chunk's text later surfaces only as a
proper prefix of the first subsequently emitted chunk or stays pending;
and a pending chunk left at the end of the traversal is flushed as the
last chunk of the returned list. -/
theorem claim_C5_force_merge :
    (∀ (env : Env) (cfg : Config) (node : Node) (anc : List Node) (s s' : SegState),
      0 < cfg.max_text_length → is_force_prepend_chunk node = true →
      isLeafNode cfg.sub_chunk_tables anc node = true →
      _traverse env cfg anc node s = some s' →
      s'.final_chunks = s.final_chunks ∧
      pendingText s' = pendingText s
        ++ node_text env cfg.xml_mode cfg.whitespace_normalize_text node) ∧
    (∀ (env : Env) (cfg : Config) (n : Node) (anc : List Node) (s s' : SegState) (p : Chunk),
      0 < cfg.max_text_length → _traverse env cfg anc n s = some s' → s.pending = some p →
      (s'.final_chunks = s.final_chunks ∧
        ∃ q, s'.pending = some q ∧ prefixOf p.text q.text) ∨
      (∃ c Δ, s'.final_chunks = s.final_chunks ++ c :: Δ ∧
        prefixOf p.text c.text ∧ p.text.length < c.text.length)) ∧
    (∀ (env : Env) (cfg : Config) (node : Node) (l : List Chunk) (s' : SegState) (p : Chunk),
      get_chunks env cfg node = some l →
      _traverse env cfg [] node { final_chunks := [], pending := none } = some s' →
      s'.pending = some p → l = s'.final_chunks ++ [p]) := by
  refine ⟨fun env cfg node anc s s' hm hlim hleaf h =>
      traverse_lim_leaf env cfg node anc s s' hm hlim hleaf h,
    fun env cfg n anc s s' p hm h hp => (traverse_pending env cfg hm).1 n anc s s' p h hp,
    ?_⟩
  intro env cfg node l s' p h ht hp
  rcases get_chunks_eq env cfg node l h with ⟨s'', ht', rfl⟩
  rw [ht] at ht'
  rcases Option.some.inj ht' with rfl
  rw [hp]
  rfl

/-- Claim C5 witness: a concrete lim leaf, a concrete pending chunk
carried into the next leaf, and a concrete end-of-traversal flush. -/
theorem claim_C5_witness :
    ((SegState.mk [] (some (Chunk.mk "l" ['a', 'b'] "l" "lim" "" none))).final_chunks
        = (SegState.mk ([] : List Chunk) none).final_chunks ∧
      pendingText (SegState.mk [] (some (Chunk.mk "l" ['a', 'b'] "l" "lim" "" none)))
        = pendingText (SegState.mk ([] : List Chunk) none)
          ++ node_text testEnv cfg1.xml_mode cfg1.whitespace_normalize_text nL) ∧
    (((SegState.mk [Chunk.mk "b" ['z', 'b', 'c', 'd'] "b" "s" "" none] none).final_chunks
        = (SegState.mk ([] : List Chunk) (some pchunk)).final_chunks ∧
      ∃ q, (SegState.mk [Chunk.mk "b" ['z', 'b', 'c', 'd'] "b" "s" "" none] none).pending
          = some q ∧ prefixOf pchunk.text q.text) ∨
      (∃ c Δ, (SegState.mk [Chunk.mk "b" ['z', 'b', 'c', 'd'] "b" "s" "" none] none).final_chunks
          = (SegState.mk ([] : List Chunk) (some pchunk)).final_chunks ++ c :: Δ ∧
        prefixOf pchunk.text c.text ∧ pchunk.text.length < c.text.length)) ∧
    ([Chunk.mk "a" ['a'] "a" "s" "" none]
      = (SegState.mk [] (some (Chunk.mk "a" ['a'] "a" "s" "" none))).final_chunks
        ++ [Chunk.mk "a" ['a'] "a" "s" "" none]) :=
  ⟨claim_C5_force_merge.1 testEnv cfg1 nL []
      (SegState.mk [] none)
      (SegState.mk [] (some (Chunk.mk "l" ['a', 'b'] "l" "lim" "" none)))
      (by decide) (by decide) (by decide) rfl,
    claim_C5_force_merge.2.1 testEnv cfg1 nB []
      (SegState.mk [] (some pchunk))
      (SegState.mk [Chunk.mk "b" ['z', 'b', 'c', 'd'] "b" "s" "" none] none)
      pchunk (by decide) rfl rfl,
    claim_C5_force_merge.2.2 testEnv cfg1 nA
      [Chunk.mk "a" ['a'] "a" "s" "" none]
      (SegState.mk [] (some (Chunk.mk "a" ['a'] "a" "s" "" none)))
      (Chunk.mk "a" ['a'] "a" "s" "" none) rfl rfl rfl⟩
